import Mathlib

/-!
# Verification of the ZetaStitcher `FileMatrix` module

A shallow embedding of `stitcher/filematrix.py` (the tile-catalog,
slice-connectivity, directional-grouping and height-estimation engine),
together with theorems settling the specification claims about it.

Modelling conventions:
* Python integers are `Int` (arbitrary precision; the pandas `int64`
  columns never overflow on the inputs in scope).
* A raised-and-uncaught Python exception is `Except.error` with the
  message text; fallible functions return `Except`/`Option`.
* The filesystem seen by `os.walk` is a finite tree (`FSTree`), and the
  `InputFile` metadata collaborator (whose code is not part of this
  module) is an oracle `String → Option (Int × Int × Int)` giving
  `(nfrms, ysize, xsize)` or failing (`RuntimeError`).
-/

namespace FileMatrixSpec

/-! ## Filename parsing (`parse_file_name`)

`parse_file_name` strips `file_name` to its base name, then tries
`re.search` with the pattern `^.*x_(\d+).*y_(\d+).*z_(\d+).*` and, if that
fails, `re.search` with the pattern `^(\d+)_(\d+)_(\d+)`; if both fail it
raises a `ValueError` whose message is `Invalid name ` followed by the name.

The two concrete regexes are embedded as direct matchers.  Greedy
backtracking semantics of pattern A: each `.*` prefers the longest
extent, i.e. each literal tag is matched at the rightmost position that
allows the rest of the pattern to match; each `(\d+)` captures the
maximal digit run at its position (shrinking a digit capture can never
enable an otherwise failing continuation here, because the following
`.*` may absorb digits and the tag letters are not digits).
-/

/-- Numeric value of a digit string, e.g. `int("005") = 5`. -/
def natFromDigits (ds : List Char) : Int :=
  ds.foldl (fun n c => n * 10 + (Int.ofNat (c.toNat - '0'.toNat))) 0

/-- Split a maximal leading digit run (the greedy `(\d+)` capture). -/
def digitSpan (l : List Char) : List Char × List Char :=
  (l.takeWhile Char.isDigit, l.dropWhile Char.isDigit)

/-- Match `<tag>_(\d+)` at the rightmost feasible position (greedy `.*<tag>_`),
backtracking leftward if the continuation `k` fails there. -/
def searchTag (tag : Char) (k : Int → List Char → Option (Int × Int × Int)) :
    List Char → Option (Int × Int × Int)
  | [] => none
  | a :: rest =>
    (searchTag tag k rest) <|>
    (if a = tag then
      match rest with
      | '_' :: r2 =>
        match digitSpan r2 with
        | ([], _) => none
        | (ds, r3) => k (natFromDigits ds) r3
      | _ => none
    else none)

/-- Pattern A of `parse_file_name`: the regex `^.*x_(\d+).*y_(\d+).*z_(\d+).*` under `re.search`. -/
def matchA (l : List Char) : Option (Int × Int × Int) :=
  searchTag 'x' (fun x r1 =>
    searchTag 'y' (fun y r2 =>
      searchTag 'z' (fun z _ => some (x, y, z)) r2) r1) l

/-- Pattern B of `parse_file_name`: the regex `^(\d+)_(\d+)_(\d+)` under
`re.search` — three underscore-delimited digit groups at the start of the
string. -/
def matchB (l : List Char) : Option (Int × Int × Int) :=
  match digitSpan l with
  | ([], _) => none
  | (d1, r1) =>
    match r1 with
    | '_' :: r2 =>
      match digitSpan r2 with
      | ([], _) => none
      | (d2, r3) =>
        match r3 with
        | '_' :: r4 =>
          match digitSpan r4 with
          | ([], _) => none
          | (d3, _) => some (natFromDigits d1, natFromDigits d2, natFromDigits d3)
        | _ => none
    | _ => none

/-- Model of `os.path.basename`: the characters after the last `/`. -/
def baseChars (l : List Char) : List Char :=
  l.foldl (fun acc c => if c = '/' then [] else acc ++ [c]) []

/-- Model of `os.path.basename` on strings. -/
def basename (s : String) : String :=
  String.mk (baseChars s.data)

/-- Model of `parse_file_name`: basename, pattern A, else pattern B, else
a `ValueError` carrying `Invalid name ` and the name.  Returns the parsed
`(x, y, z)` stage coordinates. -/
def parseFileName (fileName : String) : Except String (Int × Int × Int) :=
  match matchA (baseChars fileName.data) <|> matchB (baseChars fileName.data) with
  | some xyz => .ok xyz
  | none => .error ("Invalid name " ++ String.mk (baseChars fileName.data))

/-! ## Tile records and the data frame

`load_dir` builds a `pandas.DataFrame` with columns
`X, Y, Z, nfrms, ysize, xsize, filename` and the derived
`Z_end = Z + nfrms`; a row of that frame is a `Tile`.  The frame itself
is a list of `(index, Tile)` pairs: the `Nat` is the pandas row label
(position before sorting) and the list order is the frame order. -/

structure Tile where
  X : Int
  Y : Int
  Z : Int
  nfrms : Int
  ysize : Int
  xsize : Int
  filename : String
deriving DecidableEq, Repr

/-- Derived column `Z_end = Z + nfrms`. -/
def Tile.Z_end (t : Tile) : Int := t.Z + t.nfrms

/-- A data-frame row: pandas index label paired with the record. -/
abbrev Row := Nat × Tile

/-! ## Directory traversal and catalog loading (`load_dir`)

`os.walk` is modelled on a finite directory tree.  The `InputFile`
metadata collaborator is not part of the source of this module; following the
spec it is an oracle from a path to `(nfrms, ysize, xsize)` or a
metadata failure. -/

/-- A directory: its base name, the plain files directly inside it, and
its subdirectories. -/
inductive FSTree where
  | node (name : String) (files : List String) (subdirs : List FSTree)
deriving Repr

/-- Metadata oracle.  Modelled from the spec: the `InputFile`
collaborator (MetadataReader), whose code is outside this module,
"given a tile path, exposes `{nfrms: int, ysize: int, xsize: int}` ...
may fail with a metadata error"; `none` is the `RuntimeError` case. -/
abbrev Meta := String → Option (Int × Int × Int)

/-- Model of `os.path.join(p, q)`: no duplicated separator after a path already
ending in `/`. -/
def joinPath (p q : String) : String :=
  if p.data.getLast? = some '/' then p ++ q else p ++ "/" ++ q

mutual

/-- Model of `os.walk` top-down: yields `(root, files)` for the directory at path
`p`, then recursively for each subdirectory in order. -/
def walkT (p : String) : FSTree → List (String × List String)
  | .node _ files subdirs => (p, files) :: walkL p subdirs

/-- Model of `os.walk` over a list of subdirectories of the directory at `p`. -/
def walkL (p : String) : List FSTree → List (String × List String)
  | [] => []
  | c :: cs =>
    (match c with
     | .node n _ _ => walkT (joinPath p n) c) ++ walkL p cs

end

/-- A Python value appended to the flat accumulation list `flist`. -/
inductive PyVal where
  | i (n : Int)
  | s (str : String)
deriving DecidableEq, Repr

/-- Model of `parse_and_append(name, flist)`: parse the name, read metadata inside
the `with InputFile(name)` block, and append the seven fields
`X, Y, Z, nfrms, ysize, xsize, filename`; on a caught `ValueError` or
`RuntimeError` nothing is appended (the error is only logged).  The
return value is the list of elements appended to `flist`. -/
def parseAndAppend (meta : Meta) (name : String) : List PyVal :=
  match parseFileName name with
  | .error _ => []
  | .ok (x, y, z) =>
    match meta name with
    | none => []
    | some (nf, ys, xs) =>
      [.i x, .i y, .i z, .i nf, .i ys, .i xs, .s name]

/-- The flat list built by the traversal of `load_dir`.  For every walked
root: if `os.path.basename(root)` is non-empty, `parse_and_append(root)`
is called and — since `parse_and_append` swallows its own errors and so
never raises — the `continue` always executes, skipping the files of
that directory; only when the basename is empty (a path ending in `/`)
are the files tried individually. -/
def loadFlist (meta : Meta) (dir : String) (t : FSTree) : List PyVal :=
  (walkT dir t).flatMap (fun rf =>
    if basename rf.1 ≠ "" then parseAndAppend meta rf.1
    else rf.2.flatMap (fun f => parseAndAppend meta (joinPath rf.1 f)))

/-- The candidate paths on which `load_dir` actually calls
`parse_and_append`, in traversal order. -/
def candidates (dir : String) (t : FSTree) : List String :=
  (walkT dir t).flatMap (fun rf =>
    if basename rf.1 ≠ "" then [rf.1]
    else rf.2.map (fun f => joinPath rf.1 f))

/-- The record a successful candidate contributes to the table, if any:
`parse_and_append` appends its seven fields exactly when both the parse
and the metadata read succeed. -/
def recordOf (meta : Meta) (name : String) : Option Tile :=
  match parseFileName name with
  | .error _ => none
  | .ok (x, y, z) =>
    match meta name with
    | none => none
    | some (nf, ys, xs) =>
      some ⟨x, y, z, nf, ys, xs, name⟩

/-- The seven flat-list elements appended for one successful tile. -/
def chunkOf (t : Tile) : List PyVal :=
  [.i t.X, .i t.Y, .i t.Z, .i t.nfrms, .i t.ysize, .i t.xsize, .s t.filename]

/-- The stride-7 decoding
`{'X': flist[0::7], 'Y': flist[1::7], ..., 'filename': flist[6::7]}`
of the flat list into records (the columns of the data frame, read
row-wise). -/
def decode7 : List PyVal → List Tile
  | .i x :: .i y :: .i z :: .i nf :: .i ys :: .i xs :: .s f :: rest =>
    ⟨x, y, z, nf, ys, xs, f⟩ :: decode7 rest
  | _ => []

/-! ## `DataFrame.sort_values` and `groupby`

`sort_values(by, ascending=flag)` with a list of several `by` columns
and a single boolean `ascending` performs a stable lexicographic sort
(NumPy `lexsort`) in which the one flag sets the direction of **every**
key.  `groupby(col)` (default `sort=True`) iterates the groups in
ascending order of the group-key value, each group keeping the frame
row order. -/

/-- The lexicographic before-or-equal relation used by
`sort_values(keys, ascending=asc)`: the single boolean flips the
direction of every key. -/
def keyLE (asc : Bool) : List (Row → Int) → Row → Row → Prop
  | [], _, _ => True
  | k :: ks, a, b =>
    (if asc then k a < k b else k b < k a) ∨ (k a = k b ∧ keyLE asc ks a b)

instance keyLE.decidableRel (asc : Bool) :
    (ks : List (Row → Int)) → DecidableRel (keyLE asc ks)
  | [] => fun _ _ => isTrue trivial
  | _ :: ks => fun a b =>
    @instDecidableOr _ _ _ (@instDecidableAnd _ _ _ (keyLE.decidableRel asc ks a b))

instance (asc : Bool) (ks : List (Row → Int)) : IsTotal Row (keyLE asc ks) :=
  ⟨by
    induction ks with
    | nil => intro a b; exact Or.inl trivial
    | cons k ks ih =>
      intro a b
      rcases lt_trichotomy (k a) (k b) with h | h | h
      · cases asc with
        | true => exact Or.inl (Or.inl (by simpa using h))
        | false => exact Or.inr (Or.inl (by simpa using h))
      · rcases ih a b with h2 | h2
        · exact Or.inl (Or.inr ⟨h, h2⟩)
        · exact Or.inr (Or.inr ⟨h.symm, h2⟩)
      · cases asc with
        | true => exact Or.inr (Or.inl (by simpa using h))
        | false => exact Or.inl (Or.inl (by simpa using h))⟩

instance (asc : Bool) (ks : List (Row → Int)) : IsTrans Row (keyLE asc ks) :=
  ⟨by
    induction ks with
    | nil => intro a b c _ _; trivial
    | cons k ks ih =>
      intro a b c hab hbc
      cases asc with
      | true =>
        simp only [keyLE, if_pos rfl] at *
        rcases hab with h1 | ⟨e1, r1⟩ <;> rcases hbc with h2 | ⟨e2, r2⟩
        · exact Or.inl (h1.trans h2)
        · exact Or.inl (e2 ▸ h1)
        · exact Or.inl (e1 ▸ h2)
        · exact Or.inr ⟨e1.trans e2, ih a b c r1 r2⟩
      | false =>
        simp only [keyLE, Bool.false_eq_true, if_neg] at *
        rcases hab with h1 | ⟨e1, r1⟩ <;> rcases hbc with h2 | ⟨e2, r2⟩
        · exact Or.inl (h2.trans h1)
        · exact Or.inl (e2 ▸ h1)
        · exact Or.inl (e1 ▸ h2)
        · exact Or.inr ⟨e1.trans e2, ih a b c r1 r2⟩⟩

/-- Model of `df.sort_values(keys, ascending=asc)`: a stable sort under
`keyLE asc keys` (pandas multi-key `lexsort`, which is stable). -/
def sortValues (ks : List (Row → Int)) (asc : Bool) (rows : List Row) : List Row :=
  List.insertionSort (keyLE asc ks) rows

/-- The distinct group-key values in the order `groupby(col)` (with its
default `sort=True`) iterates them: ascending. -/
def groupbyKeys (col : Row → Int) (rows : List Row) : List Int :=
  List.insertionSort (· ≤ ·) (rows.map col).dedup

/-- Model of `for name, group in df.groupby(col)`: the groups in ascending key
order, each group in frame (row) order. -/
def groupby (col : Row → Int) (rows : List Row) : List (List Row) :=
  (groupbyKeys col rows).map (fun v => rows.filter (fun r => col r = v))

/-- The sort keys sent by the catalog: column selectors. -/
def colX : Row → Int := fun r => r.2.X
def colY : Row → Int := fun r => r.2.Y
def colZ : Row → Int := fun r => r.2.Z

/-- Model of `df.loc[s.nodes()].sort_values(keys, ascending=asc).groupby(gcol)`
iterated to a list of groups: the body of `tiles_along_dir` for one
slice. -/
def groupAlong (rows : List Row) (ks : List (Row → Int)) (asc : Bool)
    (gcol : Row → Int) : List (List Row) :=
  groupby gcol (sortValues ks asc rows)

/-- The table built by `load_dir`: decode the flat list, attach the row
labels `0, 1, …` and sort by `['Z', 'Y', 'X']` ascending. -/
def loadTable (meta : Meta) (dir : String) (t : FSTree) : List Row :=
  sortValues [colZ, colY, colX] true (decode7 (loadFlist meta dir t)).enum

/-! ## The `slices` property

For every row `t`, `view` selects the rows `u` with
`u.Z <= t.Z and u.Z_end >= t.Z_end` (frame order preserved); consecutive
pairs of the view index labels become edges, plus one edge closing the
chain between the first and the last label.  The slices are the
connected components of the resulting graph on all index labels.
Components are represented in networkx order: components in order of
their first node in insertion (frame) order, the node list of each component
in insertion order. -/

/-- The index labels of
`df[(df['Z'] <= row['Z']) & (df['Z_end'] >= row['Z_end'])]`. -/
def viewIdx (df : List Row) (t : Tile) : List Nat :=
  (df.filter (fun r => r.2.Z ≤ t.Z ∧ t.Z_end ≤ r.2.Z_end)).map Prod.fst

/-- Model of `zip` over the view index values and their tail: the
consecutive pairs. -/
def chainPairs (l : List Nat) : List (Nat × Nat) :=
  l.zip l.tail

/-- All edges contributed by one row: the consecutive pairs plus
`G.add_edge(view.index.values[0], view.index.values[-1])`.  (The view
always contains the row itself, so the empty branch is unreachable.) -/
def closeEdges : List Nat → List (Nat × Nat)
  | [] => []
  | a :: rest =>
    chainPairs (a :: rest) ++ [(a, (a :: rest).getLast (List.cons_ne_nil a rest))]

/-- The edge list of `G`, over all rows in frame order. -/
def edgesOf (df : List Row) : List (Nat × Nat) :=
  df.flatMap (fun r => closeEdges (viewIdx df r.2))

/-- Merge the two equivalence classes containing the endpoints of one
edge (a union-find step); endpoints in the same class, or absent, leave
the partition unchanged. -/
def addEdge (cs : List (List Nat)) (e : Nat × Nat) : List (List Nat) :=
  match cs.findIdx? (fun c => decide (e.1 ∈ c)), cs.findIdx? (fun c => decide (e.2 ∈ c)) with
  | some i, some j =>
    if i = j then cs
    else if i < j then
      (cs.set i (((cs.get? i).getD []) ++ ((cs.get? j).getD []))).eraseIdx j
    else
      (cs.set j (((cs.get? j).getD []) ++ ((cs.get? i).getD []))).eraseIdx i
  | _, _ => cs

/-- The raw connected-component classes: start from singletons in node
insertion order and merge along every edge. -/
def componentsRaw (df : List Row) : List (List Nat) :=
  List.foldl addEdge ((df.map Prod.fst).map (fun n => [n])) (edgesOf df)

/-- Model of `nx.connected_component_subgraphs(G)`: the nodes of each
component listed in the insertion (frame) order of `G`. -/
def slicesOf (df : List Row) : List (List Nat) :=
  (componentsRaw df).map (fun c => (df.map Prod.fst).filter (fun n => decide (n ∈ c)))

/-- Model of `df.loc[s.nodes()]`: the rows of one slice, in frame order (the
subgraph view iterates nodes in the insertion order of `G`). -/
def rowsOf (df : List Row) (c : List Nat) : List Row :=
  df.filter (fun r => decide (r.1 ∈ c))

/-! ## `tiles_along_X` / `tiles_along_Y`

`tiles_along_dir` is a coroutine: `for s in self.slices: got = yield;
view = …; for name, group in view: yield group`.  Its consumers
(`tiles_along_X`, `tiles_along_Y`) prime it with `next(g)`, send the
`(sort_keys, ascending, group_key)` tuple exactly once, and then
`yield from g`.  The observable trace is therefore:

* no slice — `next(g)` raises `StopIteration` inside the consumer
  generator, which (Python 3.6 semantics, contemporary with this code)
  simply terminates it: the empty sequence;
* one slice — the groups of that slice, then clean exhaustion;
* two or more slices — the groups of the first slice, then the bare
  `got = yield` of the second slice surfaces a spurious `None` through
  `yield from`, and the following resumption evaluates `None[0]`
  (`got[0]`), raising `TypeError`.

The trace is the list of yielded items (`none` is Python `None`) paired
with whether iterating past the end raises `TypeError`. -/

/-- The yield trace of `tiles_along_dir` as driven by its consumers,
given the sort keys, the primary flag and the group column. -/
def tilesAlongDirTrace (df : List Row) (ks : List (Row → Int)) (asc : Bool)
    (gcol : Row → Int) : List (Option (List Row)) × Bool :=
  match slicesOf df with
  | [] => ([], false)
  | [c] => ((groupAlong (rowsOf df c) ks asc gcol).map some, false)
  | c :: _ :: _ => ((groupAlong (rowsOf df c) ks asc gcol).map some ++ [none], true)

/-- Model of `tiles_along_X`: sends the keys Z, X, Y with flag
`ascending_tiles_X` and group column Y. -/
def tilesAlongXTrace (df : List Row) (ascX : Bool) :
    List (Option (List Row)) × Bool :=
  tilesAlongDirTrace df [colZ, colX, colY] ascX colY

/-- Model of `tiles_along_Y`: sends the keys Z, Y, X with flag
`ascending_tiles_Y` and group column X. -/
def tilesAlongYTrace (df : List Row) (ascY : Bool) :
    List (Option (List Row)) × Bool :=
  tilesAlongDirTrace df [colZ, colY, colX] ascY colX

/-! ## `full_height`

For each group from `tiles_along_Y`:
`overlap_sum` is the sum over the group of (ysize minus the rounded `Ys`
difference), then the ysize of the first row is subtracted from
`overlap_sum`, and the group yields `rint` of (the ysize sum, minus
`overlap_sum`, plus the `Ys` of the first row);
`full_height` is `max` over these.  `diff()` puts `NaN` first and
`rint(NaN) = 0`; on integer columns every other difference is exact, so
`rint` is the identity there.

The `Ys` column is not created anywhere in this module.  Modelled from
the spec: the missing `Ys` column is the `Y` stage coordinate of the tile
(the spec reads: add back the first tile Y coordinate to anchor the
column to absolute position). -/

/-- Model of `diff` followed by `rint` on the `Ys` column: `0` for the
first row (NaN), then the successive differences. -/
def diffRint (ys : List Int) : List Int :=
  match ys with
  | [] => []
  | _ :: rest => 0 :: List.zipWith (fun a b => a - b) rest ys

/-- The value one group contributes to `full_height` (the group is never
empty; the empty branch is unreachable). -/
def groupExtent (g : List Row) : Int :=
  match g with
  | [] => 0
  | r0 :: _ =>
    let ys := g.map (fun r => r.2.ysize)
    let yss := g.map (fun r => r.2.Y)
    let overlapSum := (List.zipWith (fun a b => a - b) ys (diffRint yss)).sum
                        - r0.2.ysize
    ys.sum - overlapSum + r0.2.Y

/-- Python `max` over an iterable: `none` means
`ValueError: max() arg is an empty sequence`. -/
def maxOf : List Int → Option Int
  | [] => none
  | x :: xs => some (xs.foldl max x)

/-- Model of `full_height`: consume `tiles_along_Y`, compute the extent of
each group
and take the maximum.  A spurious `None` group fails at
the ysize lookup on `None` with `TypeError`; an empty sequence fails inside
`max` with `ValueError`. -/
def fullHeight (df : List Row) (ascY : Bool) : Except String Int :=
  let gs := (tilesAlongYTrace df ascY).1
  if none ∈ gs then
    .error ("TypeError")
  else
    match maxOf ((gs.reduceOption).map groupExtent) with
    | some m => .ok m
    | none => .error ("max() arg is an empty sequence")

/-! ## Definitions following the specification text, for comparison

These two definitions are written from the words of the specification
(not from the source); they exist only to be compared against the
source-derived definitions above. -/

/-- Modelled from the spec text: a sort order in which "only the first
key direction is controlled by `ascending_primary`; remaining keys
sort ascending". -/
def keyLEFirstOnly (asc : Bool) : List (Row → Int) → Row → Row → Prop
  | [], _, _ => True
  | k :: ks, a, b =>
    (if asc then k a < k b else k b < k a) ∨ (k a = k b ∧ keyLE true ks a b)

instance keyLEFirstOnly.decidableRel (asc : Bool) :
    (ks : List (Row → Int)) → DecidableRel (keyLEFirstOnly asc ks)
  | [] => fun _ _ => isTrue trivial
  | _ :: ks => fun a b =>
    @instDecidableOr _ _ _ (@instDecidableAnd _ _ _ (keyLE.decidableRel true ks a b))

/-- Modelled from the spec text: the stable sort whose primary key alone
follows the `ascending_primary` flag. -/
def sortValuesSpecC5 (ks : List (Row → Int)) (asc : Bool) (rows : List Row) :
    List Row :=
  List.insertionSort (keyLEFirstOnly asc ks) rows

/-- Modelled from the claim text (C1): per group, "sum of ysize over the
group, minus the sum over the group of (ysize minus the rounded
successive Y difference, the first difference treated as zero), minus
the first tile ysize, plus the first tile Y coordinate". -/
def claimFormulaC1 (g : List Row) : Int :=
  match g with
  | [] => 0
  | r0 :: _ =>
    (g.map (fun r => r.2.ysize)).sum
      - (List.zipWith (fun a b => a - b) (g.map (fun r => r.2.ysize))
          (diffRint (g.map (fun r => r.2.Y)))).sum
      - r0.2.ysize + r0.2.Y

/-- The amended per-group formula: as `claimFormulaC1` but **plus** the
first tile ysize (which is what the code computes, because
`overlap_sum`, from which the first-row ysize was subtracted, is itself
subtracted). -/
def amendedFormulaC1 (g : List Row) : Int :=
  match g with
  | [] => 0
  | r0 :: _ =>
    (g.map (fun r => r.2.ysize)).sum
      - (List.zipWith (fun a b => a - b) (g.map (fun r => r.2.ysize))
          (diffRint (g.map (fun r => r.2.Y)))).sum
      + r0.2.ysize + r0.2.Y

/-! ## Concrete catalogs and directory trees used in the claim theorems -/

/-- Build a tile record. -/
def tileOf (x y z nf ys xs : Int) (f : String) : Tile :=
  ⟨x, y, z, nf, ys, xs, f⟩

/-- Two tiles stacked in one Y-column: `ysize = 100` each, Y = 0 and 90,
one depth range. -/
def dfStacked100 : List Row :=
  [(0, tileOf 0 0 0 1 100 10 ("a")), (1, tileOf 0 90 0 1 100 10 ("b"))]

/-- A single tile with `ysize = 50`, Y = 0. -/
def dfSingle50 : List Row :=
  [(0, tileOf 0 0 0 1 50 10 ("a"))]

/-- Two tiles with disjoint depth ranges `[0, 5)` and `[10, 15)`. -/
def dfTwoSlicesC2 : List Row :=
  [(0, tileOf 0 0 0 5 10 10 ("a")), (1, tileOf 0 0 10 5 10 10 ("b"))]

/-- Two tiles with disjoint depth ranges `[0, 5)` and `[10, 15)`. -/
def dfDisjointC6 : List Row :=
  [(0, tileOf 0 0 0 5 8 8 ("a")), (1, tileOf 0 0 10 5 8 8 ("b"))]

/-- Three tiles with one identical depth range `[0, 10)`. -/
def dfIdentC6 : List Row :=
  [(0, tileOf 0 0 0 10 8 8 ("a")), (1, tileOf 1 0 0 10 8 8 ("b")),
   (2, tileOf 2 0 0 10 8 8 ("c"))]

/-- One slice with two Y-rows: the `tiles_along_X` group key takes the
two values 0 and 10. -/
def dfTwoGroupsC4 : List Row :=
  [(0, tileOf 0 0 0 1 5 5 ("a")), (1, tileOf 0 10 0 1 5 5 ("b"))]

/-- Two rows with equal Z, equal Y and different X. -/
def rowC5a : Row := (0, tileOf 0 0 0 1 5 5 ("a"))

/-- Second row for the C5 counterexample. -/
def rowC5b : Row := (1, tileOf 1 0 0 1 5 5 ("b"))

/-- A directory whose base name does not parse, holding one
well-formed tile file. -/
def treeC3 : FSTree := .node ("data") [("1_2_3.tif")] []

/-- A metadata oracle that succeeds on every path. -/
def metaC3 : Meta := fun _ => some (7, 20, 30)

/-- A directory with no files at all. -/
def treeC9 : FSTree := .node ("data") [] []

/-! ## Helper lemmas -/

/-- Pointwise-on-members congruence for `flatMap`. -/
theorem flatMap_congr_mem {α β : Type} (l : List α) (f g : α → List β)
    (h : ∀ a ∈ l, f a = g a) : l.flatMap f = l.flatMap g := by
  induction l with
  | nil => rfl
  | cons a l ih =>
    simp only [List.flatMap_cons]
    rw [h a (List.mem_cons_self a l), ih (fun x hx => h x (List.mem_cons_of_mem a hx))]

theorem parseAndAppend_eq (meta : Meta) (name : String) :
    parseAndAppend meta name = ((recordOf meta name).map chunkOf).getD [] := by
  unfold parseAndAppend recordOf
  cases parseFileName name with
  | error e => rfl
  | ok xyz =>
    obtain ⟨x, y, z⟩ := xyz
    cases meta name with
    | none => rfl
    | some m => rfl

theorem decode7_chunk (t : Tile) (rest : List PyVal) :
    decode7 (chunkOf t ++ rest) = t :: decode7 rest := rfl

theorem decode7_flatMap (meta : Meta) (l : List String) :
    decode7 (l.flatMap (parseAndAppend meta)) = l.filterMap (recordOf meta) := by
  induction l with
  | nil => rfl
  | cons c l ih =>
    simp only [List.flatMap_cons, List.filterMap_cons, parseAndAppend_eq]
    cases h : recordOf meta c with
    | none => simpa using ih
    | some t =>
      rw [show (Option.map chunkOf (some t)).getD [] = chunkOf t from rfl,
        decode7_chunk, ih]

theorem length_flatMap_parseAndAppend (meta : Meta) (l : List String) :
    (l.flatMap (parseAndAppend meta)).length % 7 = 0 := by
  induction l with
  | nil => rfl
  | cons c l ih =>
    simp only [List.flatMap_cons, List.length_append, parseAndAppend_eq]
    cases h : recordOf meta c with
    | none =>
      rw [show (Option.map chunkOf (none : Option Tile)).getD [] = [] from rfl]
      simpa using ih
    | some t =>
      rw [show ((Option.map chunkOf (some t)).getD []).length = 7 from rfl]
      omega

theorem loadFlist_eq_flatMap (meta : Meta) (dir : String) (t : FSTree) :
    loadFlist meta dir t = (candidates dir t).flatMap (parseAndAppend meta) := by
  unfold loadFlist candidates
  rw [List.flatMap_assoc]
  apply flatMap_congr_mem
  intro rf _
  by_cases h : basename rf.1 ≠ ""
  · simp [h]
  · simp only [h, if_false]
    rw [List.flatMap_map]

/-! ## Claim theorems -/

/-- C7: `parse_coordinates` maps `img_x_005_y_010_z_020.tif` to
`(5, 10, 20)` via pattern A, maps `005_010_020_extra.tif` to
`(5, 10, 20)` via pattern B, and for every basename matching neither
pattern fails with a parse error carrying the offending name. -/
theorem parse_coordinates_patterns :
    parseFileName ("img_x_005_y_010_z_020.tif") = .ok (5, 10, 20) ∧
    parseFileName ("005_010_020_extra.tif") = .ok (5, 10, 20) ∧
    parseFileName ("not_a_tile.tif") = .error ("Invalid name not_a_tile.tif") ∧
    ∀ s : String, matchA (baseChars s.data) = none →
      matchB (baseChars s.data) = none →
      parseFileName s = .error ("Invalid name " ++ String.mk (baseChars s.data)) := by
  refine ⟨rfl, rfl, rfl, ?_⟩
  intro s h1 h2
  unfold parseFileName
  rw [h1, h2]
  rfl

/-- Witness for C7: the general failure case applied to a concrete
basename matching neither pattern. -/
theorem parse_coordinates_patterns_witness :
    parseFileName ("image.tif") = .error ("Invalid name image.tif") :=
  parse_coordinates_patterns.2.2.2 ("image.tif") rfl rfl

/-- C8: the flat list built by `load_dir` is the concatenation of
per-candidate contributions; a candidate whose parse or metadata read
fails contributes nothing (it is excluded, traversal continues, and no
other contribution changes), and a successful candidate contributes
exactly its own seven-field record. -/
theorem load_partial_failure_tolerance :
    (∀ (meta : Meta) (dir : String) (t : FSTree),
      loadFlist meta dir t = (candidates dir t).flatMap (parseAndAppend meta)) ∧
    (∀ (meta : Meta) (name : String),
      (∃ e, parseFileName name = .error e) ∨ meta name = none →
        parseAndAppend meta name = []) ∧
    (∀ (meta : Meta) (name : String) (r : Tile),
      recordOf meta name = some r → parseAndAppend meta name = chunkOf r) := by
  refine ⟨loadFlist_eq_flatMap, ?_, ?_⟩
  · intro meta name h
    unfold parseAndAppend
    rcases h with ⟨e, he⟩ | hm
    · rw [he]
    · cases hp : parseFileName name with
      | error e => rfl
      | ok xyz => obtain ⟨x, y, z⟩ := xyz; rw [hm]
  · intro meta name r h
    rw [parseAndAppend_eq, h]
    rfl

/-- Witness for C8: a failing candidate (metadata oracle fails)
contributes nothing to the flat list. -/
theorem load_partial_failure_tolerance_witness :
    parseAndAppend (fun _ => none) ("1_2_3.tif") = [] :=
  load_partial_failure_tolerance.2.1 (fun _ => none) ("1_2_3.tif") (Or.inr rfl)

/-- C10: each candidate contributes seven elements or zero, so the flat
list length is a multiple of seven and the stride-7 decoding yields
exactly one record per successful candidate, never mixing fields of
different candidates. -/
theorem flist_stride_alignment :
    ∀ (meta : Meta) (dir : String) (t : FSTree),
      (loadFlist meta dir t).length % 7 = 0 ∧
      decode7 (loadFlist meta dir t) = (candidates dir t).filterMap (recordOf meta) := by
  intro meta dir t
  rw [loadFlist_eq_flatMap]
  exact ⟨length_flatMap_parseAndAppend meta (candidates dir t),
    decode7_flatMap meta (candidates dir t)⟩

/-- C3 (code bug): a visited directory whose base name does **not** parse
as coordinates has its files skipped entirely, not tried individually:
`parse_and_append` swallows its own errors, so the `continue` after it
always executes.  Here the directory `data` holds the well-formed tile
file `1_2_3.tif` (readable metadata), yet the loaded catalog is empty. -/
theorem load_dir_skips_files_of_named_dirs :
    loadTable metaC3 ("data") treeC3 = [] ∧
    candidates ("data") treeC3 = [("data")] ∧
    recordOf metaC3 (joinPath ("data") ("1_2_3.tif")) =
      some (tileOf 1 2 3 7 20 30 ("data/1_2_3.tif")) :=
  ⟨rfl, rfl, by decide⟩

/-- C2 (code bug): with two slices, `tiles_along_X` yields the groups of
the first slice, then a spurious `None` (the bare `got = yield` of the
second slice), and the next resumption raises `TypeError` because the
tuple was sent only once. -/
theorem tiles_along_X_second_slice_crash :
    slicesOf dfTwoSlicesC2 = [[0], [1]] ∧
    tilesAlongXTrace dfTwoSlicesC2 true =
      ([some [(0, tileOf 0 0 0 5 10 10 ("a"))], none], true) :=
  ⟨rfl, rfl⟩

theorem reduceOption_map_some (l : List (List Row)) :
    (l.map some).reduceOption = l := by
  induction l with
  | nil => rfl
  | cons g l ih =>
    simp only [List.map_cons, List.reduceOption_cons_of_some, ih]

theorem groupExtent_eq_amended : groupExtent = amendedFormulaC1 := by
  funext g
  cases g with
  | nil => rfl
  | cons r0 rest =>
    show
      (((r0 :: rest).map fun r => r.2.ysize).sum
        - ((List.zipWith (fun a b => a - b) ((r0 :: rest).map fun r => r.2.ysize)
            (diffRint ((r0 :: rest).map fun r => r.2.Y))).sum - r0.2.ysize)
        + r0.2.Y) = _
    unfold amendedFormulaC1
    ring

/-- C9 (counterexample): on the empty catalog `full_height` raises
`ValueError: max() arg is an empty sequence` instead of returning an
empty result. -/
theorem empty_catalog_full_height_cex :
    fullHeight [] true = .error ("max() arg is an empty sequence") := rfl

/-- C9 (amended): from a root directory with zero surviving tiles the
catalog loads as the empty table, and `slices`, `tiles_along_X` and
`tiles_along_Y` yield empty results, but `full_height` raises
`ValueError` (Python `max` over an empty sequence). -/
theorem empty_catalog_queries :
    ∀ (meta : Meta) (dir : String) (t : FSTree) (a : Bool),
      loadTable meta dir t = [] →
      slicesOf (loadTable meta dir t) = [] ∧
      tilesAlongXTrace (loadTable meta dir t) a = ([], false) ∧
      tilesAlongYTrace (loadTable meta dir t) a = ([], false) ∧
      fullHeight (loadTable meta dir t) a =
        .error ("max() arg is an empty sequence") := by
  intro meta dir t a h
  rw [h]
  exact ⟨rfl, rfl, rfl, rfl⟩

/-- Witness for C9: a directory with no files loads to the empty table,
whose queries behave as the amended claim states. -/
theorem empty_catalog_queries_witness :
    fullHeight (loadTable (fun _ => none) ("data") treeC9) true =
      .error ("max() arg is an empty sequence") :=
  (empty_catalog_queries (fun _ => none) ("data") treeC9 true rfl).2.2.2

/-- C1 (counterexample): on the single-tile catalog (`ysize = 50`,
`Y = 0`) `full_height` returns 50, but the formula as the claim states
it (with the first tile ysize subtracted) evaluates to -50. -/
theorem full_height_claim_formula_cex :
    fullHeight dfSingle50 true = .ok 50 ∧
    maxOf (((tilesAlongYTrace dfSingle50 true).1.reduceOption).map claimFormulaC1)
      = some (-50) ∧
    ((-50 : Int) ≠ 50) :=
  ⟨rfl, rfl, by decide⟩

/-- C1 (amended): the two concrete examples hold (`full_height = 190`
for two stacked tiles of `ysize = 100` at Y = 0 and 90; `full_height =
50` for a single tile of `ysize = 50` at Y = 0), and for every catalog
whose `slices` yield a single component, `full_height` is the maximum
over all `tiles_along_Y` groups of: sum of ysize, minus the sum of
(ysize minus the rounded successive Y difference, the first difference
treated as zero), **plus** the first tile ysize, plus the first tile Y
coordinate. -/
theorem full_height_examples_and_formula :
    fullHeight dfStacked100 true = .ok 190 ∧
    fullHeight dfSingle50 true = .ok 50 ∧
    ∀ (df : List Row) (ascY : Bool) (c : List Nat) (m : Int),
      slicesOf df = [c] →
      maxOf ((groupAlong (rowsOf df c) [colZ, colY, colX] ascY colX).map
        amendedFormulaC1) = some m →
      fullHeight df ascY = .ok m := by
  refine ⟨rfl, rfl, ?_⟩
  intro df ascY c m h hm
  have htr : tilesAlongYTrace df ascY
      = ((groupAlong (rowsOf df c) [colZ, colY, colX] ascY colX).map some, false) := by
    unfold tilesAlongYTrace tilesAlongDirTrace
    rw [h]
  unfold fullHeight
  rw [htr]
  have hnone : none ∉ (groupAlong (rowsOf df c) [colZ, colY, colX] ascY colX).map some := by
    simp
  rw [if_neg hnone, reduceOption_map_some, groupExtent_eq_amended, hm]

/-- Witness for C1: the general single-slice formula applied to the
two-tile stacked catalog gives exactly the code value 190. -/
theorem full_height_examples_and_formula_witness :
    fullHeight dfStacked100 true = .ok 190 :=
  full_height_examples_and_formula.2.2 dfStacked100 true [0, 1] 190 rfl rfl

theorem filter_orderedInsert {α : Type} (r : α → α → Prop) [DecidableRel r]
    (p : α → Bool) (hcl : ∀ x y, p x = true → p y = true → r x y) (a : α) :
    ∀ l : List α, (List.orderedInsert r a l).filter p
      = if p a then a :: l.filter p else l.filter p := by
  intro l
  induction l with
  | nil => cases hpa : p a <;> simp [List.orderedInsert, List.filter, hpa]
  | cons b l ih =>
    by_cases hab : r a b
    · rw [List.orderedInsert, if_pos hab]
      cases hpa : p a <;> simp [List.filter_cons, hpa]
    · rw [List.orderedInsert, if_neg hab]
      cases hpa : p a <;> cases hpb : p b <;>
        simp only [List.filter_cons, hpa, hpb, if_true, if_false, ih,
          Bool.false_eq_true, ite_false, ite_true]
      exact absurd (hcl a b hpa hpb) hab

theorem filter_insertionSort {α : Type} (r : α → α → Prop) [DecidableRel r]
    (p : α → Bool) (hcl : ∀ x y, p x = true → p y = true → r x y) :
    ∀ l : List α, (List.insertionSort r l).filter p = l.filter p := by
  intro l
  induction l with
  | nil => rfl
  | cons a l ih =>
    rw [List.insertionSort, filter_orderedInsert r p hcl, ih]
    cases hpa : p a <;> simp [List.filter_cons, hpa]

theorem keyLE_of_keys_eq (asc : Bool) :
    ∀ (ks : List (Row → Int)) (a b : Row),
      (ks.map fun k => k a) = (ks.map fun k => k b) → keyLE asc ks a b := by
  intro ks
  induction ks with
  | nil => intro a b _; trivial
  | cons k ks ih =>
    intro a b h
    simp only [List.map_cons, List.cons.injEq] at h
    exact Or.inr ⟨h.1, ih a b h.2⟩

/-- C5 (counterexample): with `ascending = False` and equal primary key,
the second sort key also sorts descending — against the claim that only
the first key direction follows the flag (the spec-text sort
`sortValuesSpecC5` gives the opposite order on the same input). -/
theorem sort_direction_first_key_cex :
    sortValues [colZ, colX, colY] false [rowC5a, rowC5b] = [rowC5b, rowC5a] ∧
    sortValuesSpecC5 [colZ, colX, colY] false [rowC5a, rowC5b] = [rowC5a, rowC5b] ∧
    ([rowC5b, rowC5a] : List Row) ≠ [rowC5a, rowC5b] :=
  ⟨by decide, by decide, by decide⟩

/-- C5 (amended): the single `ascending` flag sets the direction of
**all three** sort keys (pandas applies a scalar `ascending` to every
`by` column); the sort is a stable permutation: rows with equal key
tuples keep their original relative order. -/
theorem sort_direction_all_keys_stable :
    ∀ (ks : List (Row → Int)) (asc : Bool) (rows : List Row),
      (sortValues ks asc rows).Perm rows ∧
      List.Sorted (keyLE asc ks) (sortValues ks asc rows) ∧
      ∀ v : List Int,
        (sortValues ks asc rows).filter (fun r => (ks.map fun k => k r) = v)
          = rows.filter (fun r => (ks.map fun k => k r) = v) := by
  intro ks asc rows
  refine ⟨List.perm_insertionSort _ _, List.sorted_insertionSort _ _, ?_⟩
  intro v
  apply filter_insertionSort
  intro x y hx hy
  apply keyLE_of_keys_eq
  rw [of_decide_eq_true hx, of_decide_eq_true hy]

theorem groupbyKeys_perm (gcol : Row → Int) {l l' : List Row} (h : l.Perm l') :
    groupbyKeys gcol l = groupbyKeys gcol l' := by
  have hs1 := List.sorted_insertionSort (fun x y : Int => x ≤ y) ((l.map gcol).dedup)
  have hs2 := List.sorted_insertionSort (fun x y : Int => x ≤ y) ((l'.map gcol).dedup)
  have hp : (groupbyKeys gcol l).Perm (groupbyKeys gcol l') :=
    (List.perm_insertionSort _ _).trans
      (((h.map gcol).dedup).trans (List.perm_insertionSort _ _).symm)
  exact List.eq_of_perm_of_sorted hp hs1 hs2

theorem groupbyKeys_nodup (gcol : Row → Int) (l : List Row) :
    (groupbyKeys gcol l).Nodup :=
  ((List.perm_insertionSort _ _).nodup_iff).mpr (List.nodup_dedup _)

theorem groupbyKeys_sorted (gcol : Row → Int) (l : List Row) :
    List.Sorted (· < ·) (groupbyKeys gcol l) :=
  (List.sorted_insertionSort _ _).lt_of_le (groupbyKeys_nodup gcol l)

theorem forall₂_perm_map {γ : Type} (keys : List γ) (f g : γ → List Row)
    (h : ∀ v ∈ keys, (f v).Perm (g v)) :
    List.Forall₂ (fun x y => x.Perm y) (keys.map f) (keys.map g) := by
  induction keys with
  | nil => exact List.Forall₂.nil
  | cons v keys ih =>
    exact List.Forall₂.cons (h v (List.mem_cons_self v keys))
      (ih fun w hw => h w (List.mem_cons_of_mem v hw))

/-- C4 (amended): for either flag value the groups are yielded in
strictly **ascending** order of the group-key value (pandas `groupby`
defaults to `sort=True`), not in run-encounter order; flipping the
primary-sort flag leaves the group sequence pointwise unchanged up to
the order of rows inside each group (same length, same memberships). -/
theorem group_order_flag_invariant :
    ∀ (rows : List Row) (ks : List (Row → Int)) (gcol : Row → Int) (a b : Bool),
      List.Pairwise (fun g h => ∀ x ∈ g, ∀ y ∈ h, gcol x < gcol y)
        (groupAlong rows ks a gcol) ∧
      List.Forall₂ (fun g h => g.Perm h)
        (groupAlong rows ks a gcol) (groupAlong rows ks b gcol) := by
  intro rows ks gcol a b
  have hperm : (sortValues ks a rows).Perm (sortValues ks b rows) :=
    (List.perm_insertionSort _ _).trans (List.perm_insertionSort _ _).symm
  constructor
  · unfold groupAlong groupby
    rw [List.pairwise_map]
    apply List.Pairwise.imp ?_ (groupbyKeys_sorted gcol (sortValues ks a rows))
    intro v w hvw x hx y hy
    rw [List.mem_filter] at hx hy
    rw [of_decide_eq_true hx.2, of_decide_eq_true hy.2]
    exact hvw
  · unfold groupAlong groupby
    rw [groupbyKeys_perm gcol hperm]
    apply forall₂_perm_map
    intro v _
    exact hperm.filter _

/-- C4 (counterexample): on a one-slice catalog with two Y-rows,
flipping `ascending_tiles_X` does **not** reverse the order in which
`tiles_along_X` yields its groups — the trace is identical for both
flag values and is not its own reverse. -/
theorem group_order_not_reversed_cex :
    (tilesAlongXTrace dfTwoGroupsC4 false).1 = (tilesAlongXTrace dfTwoGroupsC4 true).1 ∧
    (tilesAlongXTrace dfTwoGroupsC4 false).1
      ≠ ((tilesAlongXTrace dfTwoGroupsC4 true).1).reverse :=
  ⟨by decide, by decide⟩

theorem chainPairs_cons₂ (a b : Nat) (l : List Nat) :
    chainPairs (a :: b :: l) = (a, b) :: chainPairs (b :: l) := rfl

theorem mem_of_mem_chainPairs {l : List Nat} {e : Nat × Nat}
    (h : e ∈ chainPairs l) : e.1 ∈ l ∧ e.2 ∈ l := by
  unfold chainPairs at h
  obtain ⟨x, y⟩ := e
  have h2 := List.of_mem_zip h
  exact ⟨h2.1, List.mem_of_mem_tail h2.2⟩

theorem closeEdges_mem {l : List Nat} {e : Nat × Nat}
    (h : e ∈ closeEdges l) : e.1 ∈ l ∧ e.2 ∈ l := by
  cases l with
  | nil => cases h
  | cons a rest =>
    unfold closeEdges at h
    rw [List.mem_append] at h
    rcases h with h | h
    · exact mem_of_mem_chainPairs h
    · rw [List.mem_singleton] at h
      subst h
      exact ⟨List.mem_cons_self a rest, List.getLast_mem _⟩

theorem addEdge_same {C : List Nat} {x y : Nat} (rest : List (List Nat))
    (hx : x ∈ C) (hy : y ∈ C) : addEdge (C :: rest) (x, y) = C :: rest := by
  unfold addEdge
  simp only [List.findIdx?_cons, decide_eq_true hx, decide_eq_true hy, if_true]

theorem addEdge_merge {C D : List Nat} {x y : Nat} (rest : List (List Nat))
    (hx : x ∈ C) (hyC : y ∉ C) (hy : y ∈ D) :
    addEdge (C :: D :: rest) (x, y) = (C ++ D) :: rest := by
  unfold addEdge
  simp only [List.findIdx?_cons, decide_eq_true hx, decide_eq_true hy,
    decide_eq_false hyC, if_true, Bool.false_eq_true, if_false]
  rfl

theorem foldl_addEdge_within (full : List Nat) :
    ∀ es : List (Nat × Nat), (∀ e ∈ es, e.1 ∈ full ∧ e.2 ∈ full) →
      List.foldl addEdge [full] es = [full] := by
  intro es
  induction es with
  | nil => intro _; rfl
  | cons e es ih =>
    intro h
    obtain ⟨x, y⟩ := e
    have he := h (x, y) (List.mem_cons_self _ _)
    rw [List.foldl_cons, addEdge_same [] he.1 he.2]
    exact ih fun e' he' => h e' (List.mem_cons_of_mem _ he')

theorem foldl_chain :
    ∀ (rest : List Nat) (acc : List Nat) (a : Nat),
      (acc ++ a :: rest).Nodup →
      List.foldl addEdge ((acc ++ [a]) :: rest.map (fun n => [n]))
        (chainPairs (a :: rest)) = [acc ++ a :: rest] := by
  intro rest
  induction rest with
  | nil => intro acc a _; rfl
  | cons b rest ih =>
    intro acc a hnd
    rw [chainPairs_cons₂, List.map_cons, List.foldl_cons]
    have hx : a ∈ acc ++ [a] := by simp
    have hyC : b ∉ acc ++ [a] := by
      rw [List.nodup_append] at hnd
      intro hmem
      rw [List.mem_append, List.mem_singleton] at hmem
      rcases hmem with hb | hb
      · exact hnd.2.2 hb (List.mem_cons_of_mem a (List.mem_cons_self b rest))
      · have := hnd.2.1
        rw [List.nodup_cons] at this
        exact this.1 (hb ▸ List.mem_cons_self b rest)
    have hy : b ∈ [b] := List.mem_singleton_self b
    rw [addEdge_merge (rest.map fun n => [n]) hx hyC hy]
    have hnd' : ((acc ++ [a]) ++ b :: rest).Nodup := by
      rw [List.append_assoc]
      simpa using hnd
    have := ih (acc ++ [a]) b hnd'
    rw [this]
    rw [List.append_assoc]
    rfl

theorem viewIdx_all {df : List Row} {z zend : Int}
    (h : ∀ r ∈ df, r.2.Z = z ∧ r.2.Z_end = zend) {t : Tile}
    (hz : t.Z = z) (hze : t.Z_end = zend) :
    viewIdx df t = df.map Prod.fst := by
  unfold viewIdx
  rw [List.filter_eq_self.mpr]
  intro r hr
  obtain ⟨h1, h2⟩ := h r hr
  rw [decide_eq_true]
  exact ⟨by rw [h1, hz], by rw [hze, h2]⟩

theorem edgesOf_all {df : List Row} {z zend : Int}
    (h : ∀ r ∈ df, r.2.Z = z ∧ r.2.Z_end = zend) :
    edgesOf df = df.flatMap (fun _ => closeEdges (df.map Prod.fst)) := by
  unfold edgesOf
  apply flatMap_congr_mem
  intro r hr
  rw [viewIdx_all h (h r hr).1 (h r hr).2]

theorem componentsRaw_ident {df : List Row} {z zend : Int} (hne : df ≠ [])
    (hnd : (df.map Prod.fst).Nodup)
    (h : ∀ r ∈ df, r.2.Z = z ∧ r.2.Z_end = zend) :
    componentsRaw df = [df.map Prod.fst] := by
  unfold componentsRaw
  rw [edgesOf_all h]
  rcases df with _ | ⟨r, df'⟩
  · exact absurd rfl hne
  · rw [List.flatMap_cons, List.foldl_append]
    have hlast := List.getLast_mem
      (List.cons_ne_nil r.1 (df'.map Prod.fst))
    have h1 : List.foldl addEdge (((r :: df').map Prod.fst).map (fun n => [n]))
        (closeEdges ((r :: df').map Prod.fst)) = [(r :: df').map Prod.fst] := by
      show List.foldl addEdge (([] ++ [r.1]) :: (df'.map Prod.fst).map (fun n => [n]))
        (chainPairs (r.1 :: df'.map Prod.fst)
          ++ [(r.1, (r.1 :: df'.map Prod.fst).getLast
                (List.cons_ne_nil r.1 (df'.map Prod.fst)))]) = _
      rw [List.foldl_append]
      rw [foldl_chain (df'.map Prod.fst) [] r.1 (by simp at hnd ⊢; exact hnd)]
      rw [List.nil_append]
      show addEdge [r.1 :: df'.map Prod.fst] _ = _
      rw [addEdge_same [] (List.mem_cons_self _ _) hlast]
      rfl
    rw [h1]
    apply foldl_addEdge_within
    intro e he
    rw [List.mem_flatMap] at he
    obtain ⟨_, _, hemem⟩ := he
    exact closeEdges_mem hemem

theorem slicesOf_ident {df : List Row} {z zend : Int} (hne : df ≠ [])
    (hnd : (df.map Prod.fst).Nodup)
    (h : ∀ r ∈ df, r.2.Z = z ∧ r.2.Z_end = zend) :
    slicesOf df = [df.map Prod.fst] := by
  unfold slicesOf
  rw [componentsRaw_ident hne hnd h]
  rw [List.map_singleton, List.filter_eq_self.mpr]
  intro n hn
  exact decide_eq_true hn

/-- C6: if all tiles share one identical depth range, `slices` yields
exactly one connected component holding every tile index; two tiles
with disjoint depth ranges `[0, 5)` and `[10, 15)` yield two disjoint
singleton components. -/
theorem slices_components :
    (∀ (df : List Row) (z zend : Int), df ≠ [] → (df.map Prod.fst).Nodup →
      (∀ r ∈ df, r.2.Z = z ∧ r.2.Z_end = zend) →
      slicesOf df = [df.map Prod.fst]) ∧
    slicesOf dfDisjointC6 = [[0], [1]] :=
  ⟨fun _ _ _ hne hnd h => slicesOf_ident hne hnd h, by decide⟩

/-- Witness for C6: three tiles with the identical depth range `[0, 10)`
form a single slice containing all three indices. -/
theorem slices_components_witness :
    slicesOf dfIdentC6 = [[0, 1, 2]] :=
  (slices_components.1 dfIdentC6 0 10 (by decide) (by decide) (by decide)).trans
    (by decide)

end FileMatrixSpec
